import Mathlib

/-!
Shallow embedding of the kubewatch watch-dispatch and flattening engine
(`kubewatch.go`, v0.4.0 with Splunk HEC output).

The Go program:
  * keeps a static list `resources` of watchable resource names and a map
    `resourceObject` from each name to its API version and prototype object;
  * `watchResource` picks the REST client by a switch on the apiVersion;
  * `printEvent` marshals each add/delete notification to JSON, optionally
    flattens it (`--flatten`), prints the JSON line to stdout, and sends it
    to the Splunk HEC collector, calling `log.Fatal` when that write fails;
  * `flatten` recursively walks a `reflect.Value`, appending `"_"` to the
    non-empty prefix, dispatching on the value kind, with helper functions
    `flattenBool`, `flattenFloat64`, `flattenMap`, `flattenSlice`,
    `flattenString`.

The embedding models a JSON-decoded Go value (`GoVal`), the mutable result
map plus the logrus error log (`FlatSt`, with the result map represented as
the ordered list of assignments performed on it), and the straight-line
effect trace of `printEvent`.
-/

namespace Kubewatch

/-- A key of a Go map as seen through reflection in `flattenMap`.
`str s` is a key of kind `reflect.String`; `nonString rendered` is a key of
any other kind, carrying the text that `reflect.Value.String()` returns for
it (e.g. `"<int Value>"`), which `flattenMap` uses both in its log message
and in the recursive call. -/
inductive GoKey where
  | str (s : String)
  | nonString (rendered : String)
deriving DecidableEq, Repr

/-- The text `k.String()` yields for a map key in `flattenMap`. -/
def GoKey.render : GoKey → String
  | .str s => s
  | .nonString r => r

/-- A dynamically-typed Go value as `flatten` inspects it after JSON
decoding: booleans, float64 numbers, strings, maps, slices, a nil
interface (`v.Elem()` of a null — `!v.IsValid()`), and `vother` for any
value of a kind outside the switch (the `default:` branch). Map entries
are listed in the iteration order `v.MapKeys()` produces. -/
inductive GoVal where
  | vnull
  | vbool (b : Bool)
  | vnum (q : ℚ)
  | vstr (s : String)
  | vmap (kvs : List (GoKey × GoVal))
  | vslice (xs : List GoVal)
  | vother
deriving Repr

/-- State threaded through `flatten`: the result map `r` (as the ordered
list of assignments `r[k] = val` executed on it) and the logrus error
messages emitted so far. -/
structure FlatSt where
  r : List (String × String)
  logs : List String
deriving DecidableEq, Repr

/-- The empty state: fresh `r := strIfce{}` and no log output. -/
def FlatSt.init : FlatSt := ⟨[], []⟩

/-- Lookup in the result map built from the assignment list: the last
assignment to a key wins, as for a Go map. -/
def getR (r : List (String × String)) (k : String) : Option String :=
  (r.reverse.find? (fun kv => kv.1 == k)).map (fun kv => kv.2)

/-- Base-10 digit list of `n`, least significant digit first, computed with
explicit fuel so that the kernel can evaluate it (`fuel > n` suffices). -/
def natDigitsRevAux : ℕ → ℕ → List ℕ
  | 0, _ => []
  | fuel + 1, n => if n < 10 then [n] else n % 10 :: natDigitsRevAux fuel (n / 10)

/-- Base-10 digit list of `n`, least significant digit first. -/
def natDigitsRev (n : ℕ) : List ℕ := natDigitsRevAux (n + 1) n

/-- The character for one decimal digit. -/
def digitChar (d : ℕ) : Char := Char.ofNat (48 + d)

/-- Decimal rendering of a natural number, as produced by Go's
`fmt.Sprintf("%d", n)`. -/
def natToDec (n : ℕ) : String :=
  ⟨((natDigitsRev n).reverse.map digitChar)⟩

/-- Zero-padding of a digit string to six characters, for the fractional
part of `%f`. -/
def padSix (s : String) : String :=
  ⟨List.replicate (6 - s.length) '0'⟩ ++ s

/-- Rendering of a number as Go's `fmt.Sprintf("%f", x)` does: fixed-point
with six digits after the decimal point (rounding to nearest at the sixth
digit; every number in the claims is an integer, where no rounding
happens). -/
def goSprintfF (q : ℚ) : String :=
  let scaled : ℕ := (q.num.natAbs * 2000000 + q.den) / (2 * q.den)
  (if q.num < 0 then "-" else "") ++
    natToDec (scaled / 1000000) ++ "." ++ padSix (natToDec (scaled % 1000000))

/-- The prefix transform at the top of `flatten`: append `"_"` to a
non-empty prefix. -/
def goPre (p : String) : String := if p ≠ "" then p ++ "_" else p

/-- Go's `p[:len(p)-1]`: the prefix with its final character removed.
In the source the stripped character is always the just-appended one-byte
`"_"`, so the byte-slice and the character-level `dropLast` agree. -/
def stripLast (s : String) : String := ⟨s.data.dropLast⟩

/-- Embedding of `flattenBool`: assigns `"true"`/`"false"` to the prefix
with its final character (the appended underscore) stripped. -/
def flattenBool (b : Bool) (p : String) (st : FlatSt) : FlatSt :=
  { st with r := st.r ++ [(stripLast p, if b then "true" else "false")] }

/-- Embedding of `flattenFloat64`: assigns `fmt.Sprintf("%f", v.Float())`
to the stripped prefix. -/
def flattenFloat64 (q : ℚ) (p : String) (st : FlatSt) : FlatSt :=
  { st with r := st.r ++ [(stripLast p, goSprintfF q)] }

/-- Embedding of `flattenString`: assigns the string verbatim to the
stripped prefix. -/
def flattenString (s : String) (p : String) (st : FlatSt) : FlatSt :=
  { st with r := st.r ++ [(stripLast p, s)] }

mutual

/-- Embedding of `flatten(r strIfce, p string, v reflect.Value)`: appends
`"_"` to a non-empty prefix, returns unchanged on an invalid (nil) value,
then dispatches on the kind; the `default:` branch logs `"Unknown: " + p`. -/
def flatten (st : FlatSt) (p : String) (v : GoVal) : FlatSt :=
  let p := goPre p
  match v with
  | .vnull => st
  | .vbool b => flattenBool b p st
  | .vnum q => flattenFloat64 q p st
  | .vmap kvs => flattenMap kvs p st
  | .vslice xs => flattenSlice xs p st
  | .vstr s => flattenString s p st
  | .vother => { st with logs := st.logs ++ ["Unknown: " ++ p] }
termination_by (sizeOf v, 0)

/-- Embedding of the `for _, k := range v.MapKeys()` loop of `flattenMap`:
a non-string key is logged (`"%s: map key is not string: %s"`) and then the
loop still recurses with `p + k.String()`, exactly as the Go code does. -/
def flattenMap (kvs : List (GoKey × GoVal)) (p : String) (st : FlatSt) : FlatSt :=
  match kvs with
  | [] => st
  | (k, v) :: rest =>
      let st1 :=
        match k with
        | .str _ => st
        | .nonString rend =>
            { st with logs := st.logs ++ [p ++ ": map key is not string: " ++ rend] }
      flattenMap rest p (flatten st1 (p ++ k.render) v)
termination_by (sizeOf kvs, 0)

/-- Embedding of `flattenSlice`: first `r[p+"#"] = len`, then the indexed
loop `flatten(r, fmt.Sprintf("%s%d", p, i), v.Index(i))`. -/
def flattenSlice (xs : List GoVal) (p : String) (st : FlatSt) : FlatSt :=
  flattenSliceLoop xs p
    { st with r := st.r ++ [(p ++ "#", natToDec xs.length)] } 0
termination_by (sizeOf xs, 1)

/-- The element loop of `flattenSlice`, with `i` the current index. -/
def flattenSliceLoop (xs : List GoVal) (p : String) (st : FlatSt) (i : ℕ) : FlatSt :=
  match xs with
  | [] => st
  | x :: rest => flattenSliceLoop rest p (flatten st (p ++ natToDec i) x) (i + 1)
termination_by (sizeOf xs, 0)

end

/-- The document of the end-to-end example:
`{"a": {"b": true, "c": [1,2]}}`, with iteration order `b` before `c`. -/
def docE2E : GoVal :=
  .vmap [(.str "a", .vmap
    [(.str "b", .vbool true),
     (.str "c", .vslice [.vnum 1, .vnum 2])])]

/-! ### Resource registry and `watchResource` client selection -/

/-- The CLI-accepted resource names (`resources` in the source). -/
def resources : List String :=
  ["configMaps", "endpoints", "events", "limitranges",
   "persistentvolumeclaims", "persistentvolumes", "pods", "podtemplates",
   "replicationcontrollers", "resourcequotas", "secrets", "serviceaccounts",
   "services", "deployments", "horizontalpodautoscalers", "ingresses", "jobs"]

/-- `verObj`: an API version together with the name of the prototype
runtime object used to decode watch payloads. -/
structure verObj where
  apiVersion : String
  runtimeObject : String
deriving DecidableEq, Repr

/-- The `resourceObject` registry mapping each resource name to its
`verObj` entry. -/
def resourceObject : List (String × verObj) :=
  [("configMaps", ⟨"v1", "v1.ConfigMap"⟩),
   ("endpoints", ⟨"v1", "v1.Endpoints"⟩),
   ("events", ⟨"v1", "v1.Event"⟩),
   ("limitranges", ⟨"v1", "v1.LimitRange"⟩),
   ("persistentvolumeclaims", ⟨"v1", "v1.PersistentVolumeClaim"⟩),
   ("persistentvolumes", ⟨"v1", "v1.PersistentVolume"⟩),
   ("pods", ⟨"v1", "v1.Pod"⟩),
   ("podtemplates", ⟨"v1", "v1.PodTemplate"⟩),
   ("replicationcontrollers", ⟨"v1", "v1.ReplicationController"⟩),
   ("resourcequotas", ⟨"v1", "v1.ResourceQuota"⟩),
   ("secrets", ⟨"v1", "v1.Secret"⟩),
   ("serviceaccounts", ⟨"v1", "v1.ServiceAccount"⟩),
   ("services", ⟨"v1", "v1.Service"⟩),
   ("deployments", ⟨"v1beta1", "v1beta1.Deployment"⟩),
   ("horizontalpodautoscalers", ⟨"v1beta1", "v1beta1.HorizontalPodAutoscaler"⟩),
   ("ingresses", ⟨"v1beta1", "v1beta1.Ingress"⟩),
   ("jobs", ⟨"v1beta1", "v1beta1.Job"⟩)]

/-- Go map lookup `resourceObject[resource]`. -/
def lookupResource (r : String) : Option verObj :=
  (resourceObject.find? (fun kv => kv.1 == r)).map (fun kv => kv.2)

/-- `resourceObject[resource].apiVersion`: indexing a Go map with a missing
key yields the zero value, whose `apiVersion` field is `""`. -/
def resourceApiVersion (r : String) : String :=
  match lookupResource r with
  | some o => o.apiVersion
  | none => ""

/-- The two REST clients `watchResource` can select. -/
inductive RestClient where
  | coreV1
  | extensionsV1beta1
deriving DecidableEq, Repr

/-- The `switch resourceObject[resource].apiVersion` in `watchResource`:
`"v1"` selects the core client, `"v1beta1"` the extensions client, and in
any other case the `client` variable keeps its zero value `nil`. -/
def watchResourceClient (r : String) : Option RestClient :=
  match resourceApiVersion r with
  | "v1" => some .coreV1
  | "v1beta1" => some .extensionsV1beta1
  | _ => none

/-! ### `printEvent`: effect trace -/

/-- One observable step of `printEvent`: a logrus error line, a line
printed to stdout, an attempted write to the Splunk HEC collector, or the
process termination performed by `log.Fatal`. -/
inductive Action where
  | logError (msg : String)
  | consoleWrite (line : String)
  | remoteWrite (body : String)
  | fatalExit
deriving DecidableEq, Repr

/-- The external collaborators of `printEvent`, supplied as oracles: the
outcomes of `json.Marshal(obj)`, of `json.Unmarshal(jsn, &dat)` (which on
success yields a `map[string]interface{}`, i.e. a string-keyed document),
of the re-marshal `json.Marshal(r)` of the flat record, of
`splunkClient.WriteEvent` (`some err` or `none`), and the error value of
`fmt.Printf` — which the Go code discards, so it cannot influence the
trace. -/
structure PrintEventIO where
  marshalObj : Except String String
  unmarshalDoc : String → Except String (List (String × GoVal))
  marshalFlat : List (String × String) → Except String String
  splunkWrite : String → Option String
  consoleErr : Option String

/-- The delivery tail of `printEvent`: print the JSON line to stdout, then
send it to the Splunk HEC collector; a remote failure is `log.Fatal(err)`,
which logs the error and terminates the process. -/
def deliverEvent (io : PrintEventIO) (jsn : String) : List Action :=
  [.consoleWrite jsn, .remoteWrite jsn] ++
    (match io.splunkWrite jsn with
     | some e => [.logError e, .fatalExit]
     | none => [])

/-- Embedding of `printEvent(obj interface{})` as the trace of its
observable actions when the marshalled form of `obj` and the other
collaborator outcomes are given by `io`. -/
def printEvent (flgFlatten : Bool) (io : PrintEventIO) : List Action :=
  match io.marshalObj with
  | .error _ => [.logError "Ops! Cannot marshal JSON"]
  | .ok jsn =>
    if flgFlatten then
      match io.unmarshalDoc jsn with
      | .error _ => [.logError "Ops! Cannot unmarshal JSON"]
      | .ok dat =>
        let st := flatten .init "kubewatch"
          (.vmap (dat.map (fun kv => (GoKey.str kv.1, kv.2))))
        (st.logs.map .logError) ++
          (match io.marshalFlat st.r with
           | .error _ => [.logError "Ops! Cannot marshal JSON"]
           | .ok jsn2 => deliverEvent io jsn2)
    else
      deliverEvent io jsn

/-- Whether a value is a scalar leaf (boolean, number or string). -/
def isScalar : GoVal → Bool
  | .vbool _ => true
  | .vnum _ => true
  | .vstr _ => true
  | _ => false

/-- The string a scalar leaf is rendered to by the flattener. -/
def scalarVal : GoVal → String
  | .vbool b => if b then "true" else "false"
  | .vnum q => goSprintfF q
  | .vstr s => s
  | _ => ""

/-! ### Operational semantics of the flattening procedure

`Exec st t out` is the big-step execution relation of the procedure: one
derivation is one invocation, with map entries iterated in the order the
task carries. `claim_C8` proves this relation deterministic. -/

/-- A pending unit of work of the flattening procedure: a `flatten` call,
the key loop of `flattenMap`, or the indexed element loop of
`flattenSlice`. -/
inductive Task where
  | node (p : String) (v : GoVal)
  | mapLoop (kvs : List (GoKey × GoVal)) (p : String)
  | sliceLoop (xs : List GoVal) (p : String) (i : ℕ)

/-- Big-step execution of the flattening procedure, rule for rule after the
Go control flow: `node` rules mirror the kind switch of `flatten` (with the
prefix transform `goPre` applied first), `mapLoop` rules mirror the key
loop of `flattenMap` (logging non-string keys, then recursing regardless),
and `sliceLoop` rules mirror the element loop of `flattenSlice`. -/
inductive Exec : FlatSt → Task → FlatSt → Prop where
  | nullStep (st : FlatSt) (p : String) : Exec st (.node p .vnull) st
  | boolStep (st : FlatSt) (p : String) (b : Bool) :
      Exec st (.node p (.vbool b)) (flattenBool b (goPre p) st)
  | numStep (st : FlatSt) (p : String) (q : ℚ) :
      Exec st (.node p (.vnum q)) (flattenFloat64 q (goPre p) st)
  | strStep (st : FlatSt) (p s : String) :
      Exec st (.node p (.vstr s)) (flattenString s (goPre p) st)
  | otherStep (st : FlatSt) (p : String) :
      Exec st (.node p .vother)
        { st with logs := st.logs ++ ["Unknown: " ++ goPre p] }
  | mapStep (st out : FlatSt) (p : String) (kvs : List (GoKey × GoVal)) :
      Exec st (.mapLoop kvs (goPre p)) out → Exec st (.node p (.vmap kvs)) out
  | sliceStep (st out : FlatSt) (p : String) (xs : List GoVal) :
      Exec { st with r := st.r ++ [(goPre p ++ "#", natToDec xs.length)] }
        (.sliceLoop xs (goPre p) 0) out →
      Exec st (.node p (.vslice xs)) out
  | mapNil (st : FlatSt) (p : String) : Exec st (.mapLoop [] p) st
  | mapConsStr (st mid out : FlatSt) (p s : String) (v : GoVal)
      (rest : List (GoKey × GoVal)) :
      Exec st (.node (p ++ s) v) mid → Exec mid (.mapLoop rest p) out →
      Exec st (.mapLoop ((.str s, v) :: rest) p) out
  | mapConsNonStr (st mid out : FlatSt) (p rend : String) (v : GoVal)
      (rest : List (GoKey × GoVal)) :
      Exec { st with logs := st.logs ++ [p ++ ": map key is not string: " ++ rend] }
        (.node (p ++ rend) v) mid →
      Exec mid (.mapLoop rest p) out →
      Exec st (.mapLoop ((.nonString rend, v) :: rest) p) out
  | sliceNil (st : FlatSt) (p : String) (i : ℕ) : Exec st (.sliceLoop [] p i) st
  | sliceCons (st mid out : FlatSt) (p : String) (i : ℕ) (x : GoVal)
      (rest : List GoVal) :
      Exec st (.node (p ++ natToDec i) x) mid →
      Exec mid (.sliceLoop rest p (i + 1)) out →
      Exec st (.sliceLoop (x :: rest) p i) out

/-- The function computed by each task, in terms of the source functions. -/
def taskRun (st : FlatSt) : Task → FlatSt
  | .node p v => flatten st p v
  | .mapLoop kvs p => flattenMap kvs p st
  | .sliceLoop xs p i => flattenSliceLoop xs p st i


/-- Document `{"a": {"b": true}, "a_b": false}` — two distinct leaf paths,
`["a","b"]` and `["a_b"]`, both flattened to the key `"root_a_b"`. -/
def docClash : GoVal :=
  .vmap [(.str "a", .vmap [(.str "b", .vbool true)]),
         (.str "a_b", .vbool false)]

/-- Document `{"k": null, "b": true}` — a null leaf followed by a boolean
sibling. -/
def docNull : GoVal :=
  .vmap [(.str "k", .vnull), (.str "b", .vbool true)]

/-- A map whose single key is not string-like (rendered by reflection as
`"<int Value>"`), bound to the boolean `true`. -/
def docBadKey : GoVal :=
  .vmap [(.nonString "<int Value>", .vbool true)]


/-! ### Write paths and key construction

`wpaths v` lists, in emission order, the component paths of all entries
`flatten` writes for `v`: `[]` for a scalar at the current prefix, the
sequence-length marker `["#"]`, map keys and decimal indices as
components. `keyOf p cs` is the key string the flattener builds for the
path `cs` below the prefix `p` (each component preceded by `"_"`). -/

mutual

/-- The component paths of all entries written for a value, in order. -/
def wpaths : GoVal → List (List String)
  | .vnull => []
  | .vbool _ => [[]]
  | .vnum _ => [[]]
  | .vstr _ => [[]]
  | .vother => []
  | .vmap kvs => wpathsEntries kvs
  | .vslice xs => ["#"] :: wpathsElems 0 xs
termination_by v => (sizeOf v, 0)

/-- Paths contributed by the entries of a map, each prefixed with its
(rendered) key. -/
def wpathsEntries : List (GoKey × GoVal) → List (List String)
  | [] => []
  | (k, v) :: rest =>
      (wpaths v).map (fun cs => k.render :: cs) ++ wpathsEntries rest
termination_by kvs => (sizeOf kvs, 0)

/-- Paths contributed by the elements of a slice from index `i` on, each
prefixed with its decimal index. -/
def wpathsElems (i : ℕ) : List GoVal → List (List String)
  | [] => []
  | x :: rest =>
      (wpaths x).map (fun cs => natToDec i :: cs) ++ wpathsElems (i + 1) rest
termination_by xs => (sizeOf xs, 0)

end

/-- The key built for path `cs` below prefix `p`: every component is
appended behind an underscore separator. -/
def keyOf (p : String) (cs : List String) : String :=
  cs.foldl (fun a c => a ++ "_" ++ c) p

/-- The key built for a loop-level path below an already-underscored
prefix `p`: the first component is concatenated directly. -/
def keyOfLoop (p : String) : List String → String
  | [] => p
  | c :: cs => keyOf (p ++ c) cs

/-- Decimal value of a digit list, least significant digit first. -/
def ofDigitsRev : List ℕ → ℕ
  | [] => 0
  | d :: ds => d + 10 * ofDigitsRev ds

/-- The character data of `keyOf`'s tail: every component behind one
underscore. -/
def tailJoin : List (List Char) → List Char
  | [] => []
  | d :: ds => '_' :: (d ++ tailJoin ds)

/-- Whether a list of map keys is string-like, mutually distinct and free
of the underscore separator. -/
def goodKeys : List GoKey → Bool
  | [] => true
  | .nonString _ :: _ => false
  | .str s :: rest =>
      !s.data.contains '_' && !(rest.map GoKey.render).contains s && goodKeys rest

mutual

/-- A well-formed document for the key-uniqueness statement: every mapping
has string-like keys, distinct within the mapping (as JSON objects
guarantee) and containing no underscore. -/
def goodDoc : GoVal → Bool
  | .vmap kvs => goodKeys (kvs.map Prod.fst) && goodEntries kvs
  | .vslice xs => goodElems xs
  | _ => true
termination_by v => (sizeOf v, 0)

/-- `goodDoc` for every value of a map entry list. -/
def goodEntries : List (GoKey × GoVal) → Bool
  | [] => true
  | (_, v) :: rest => goodDoc v && goodEntries rest
termination_by kvs => (sizeOf kvs, 0)

/-- `goodDoc` for every element of a slice. -/
def goodElems : List GoVal → Bool
  | [] => true
  | x :: rest => goodDoc x && goodElems rest
termination_by xs => (sizeOf xs, 0)

end


/-- The keys of the result map's assignment list, in write order. -/
def rKeys (st : FlatSt) : List String := st.r.map Prod.fst

/-! ### Sanity checks of the embedding's rendering functions -/

example : natToDec 0 = "0" := by decide
example : natToDec 12 = "12" := by decide
example : natToDec 105 = "105" := by decide
example : goSprintfF 1 = "1.000000" := by decide
example : goSprintfF 2 = "2.000000" := by decide

example :
    (flatten .init "root" docE2E).r =
      [("root_a_b", "true"), ("root_a_c_#", "2"),
       ("root_a_c_0", "1.000000"), ("root_a_c_1", "2.000000")] := by
  simp only [docE2E, flatten, flattenMap, flattenSlice, flattenSliceLoop,
    flattenBool, flattenFloat64, flattenString, goPre, GoKey.render, FlatSt.init]
  decide

/-! ### C9: registry covers the CLI enumeration -/

/-- C9: every resource name in the 17-element `resources` enumeration is a
key of the `resourceObject` registry, its `apiVersion` field is `"v1"` or
`"v1beta1"`, and hence the API-surface switch in `watchResource` assigns a
non-nil REST client for it. -/
theorem claim_C9 (r : String) (h : r ∈ resources) :
    (lookupResource r).isSome = true ∧
    (resourceApiVersion r = "v1" ∨ resourceApiVersion r = "v1beta1") ∧
    watchResourceClient r ≠ none := by
  have H : ∀ x ∈ resources,
      (lookupResource x).isSome = true ∧
      (resourceApiVersion x = "v1" ∨ resourceApiVersion x = "v1beta1") ∧
      watchResourceClient x ≠ none := by decide
  exact H r h

/-- Witness for C9 at the concrete resource name `"pods"`. -/
theorem claim_C9_witness :
    (lookupResource "pods").isSome = true ∧
    (resourceApiVersion "pods" = "v1" ∨ resourceApiVersion "pods" = "v1beta1") ∧
    watchResourceClient "pods" ≠ none :=
  claim_C9 "pods" (by decide)

/-! ### C6: serialization failures drop the event -/

/-- C6: when `json.Marshal(obj)` fails, or in flatten mode the intermediate
unmarshal or the re-marshal of the flat record fails, `printEvent` logs the
error and returns with a trace of log actions only: nothing is written to
the console, nothing is sent to the remote sink, and no process exit
happens, so the watch loop processes the next event. -/
theorem claim_C6 (flg : Bool) (io : PrintEventIO) :
    (∀ e, io.marshalObj = .error e →
      printEvent flg io = [.logError "Ops! Cannot marshal JSON"]) ∧
    (∀ jsn e, io.marshalObj = .ok jsn → io.unmarshalDoc jsn = .error e →
      printEvent true io = [.logError "Ops! Cannot unmarshal JSON"]) ∧
    (∀ jsn dat e, io.marshalObj = .ok jsn → io.unmarshalDoc jsn = .ok dat →
      io.marshalFlat (flatten .init "kubewatch"
          (.vmap (dat.map (fun kv => (GoKey.str kv.1, kv.2))))).r = .error e →
      printEvent true io =
        ((flatten .init "kubewatch"
            (.vmap (dat.map (fun kv => (GoKey.str kv.1, kv.2))))).logs ++
          ["Ops! Cannot marshal JSON"]).map Action.logError) := by
  refine ⟨fun e he => ?_, fun jsn e hj hu => ?_, fun jsn dat e hj hu hm => ?_⟩
  · simp [printEvent, he]
  · simp [printEvent, hj, hu]
  · simp [printEvent, hj, hu, hm]

/-- Witness for C6 at a concrete oracle whose `json.Marshal` fails. -/
theorem claim_C6_witness :
    printEvent false
      ⟨.error "bad", fun _ => .error "", fun _ => .error "", fun _ => none, none⟩ =
      [.logError "Ops! Cannot marshal JSON"] :=
  (claim_C6 false
      ⟨.error "bad", fun _ => .error "", fun _ => .error "", fun _ => none, none⟩).1
    "bad" rfl

/-! ### C7: remote failure is fatal, console failure is not -/

/-- C7: for a delivered record, a failing write to the remote event
collector ends the trace with the process exit of `log.Fatal` (nothing runs
after it), the error value of the console write is discarded and can never
influence the trace (in particular it is never fatal), and when the remote
write succeeds the delivery returns normally with no exit. The last
conjunct ties the delivery tail to `printEvent` in non-flatten mode. -/
theorem claim_C7 (io : PrintEventIO) (jsn : String) :
    (∀ e, io.splunkWrite jsn = some e →
      deliverEvent io jsn =
        [.consoleWrite jsn, .remoteWrite jsn, .logError e, .fatalExit]) ∧
    (io.splunkWrite jsn = none →
      deliverEvent io jsn = [.consoleWrite jsn, .remoteWrite jsn] ∧
      Action.fatalExit ∉ deliverEvent io jsn) ∧
    (∀ ce, deliverEvent { io with consoleErr := ce } jsn = deliverEvent io jsn) ∧
    (io.marshalObj = .ok jsn → printEvent false io = deliverEvent io jsn) := by
  refine ⟨fun e he => ?_, fun hn => ?_, fun ce => rfl, fun hj => ?_⟩
  · simp [deliverEvent, he]
  · constructor
    · simp [deliverEvent, hn]
    · simp [deliverEvent, hn]
  · simp [printEvent, hj]

/-- Witness for C7 at a concrete oracle whose remote write fails. -/
theorem claim_C7_witness :
    deliverEvent
      ⟨.ok "J", fun _ => .error "", fun _ => .error "", fun _ => some "down", none⟩ "J" =
      [.consoleWrite "J", .remoteWrite "J", .logError "down", .fatalExit] :=
  (claim_C7
      ⟨.ok "J", fun _ => .error "", fun _ => .error "", fun _ => some "down", none⟩
      "J").1 "down" rfl

/-! ### Helper lemmas about `deliverEvent` -/

/-- The part of the delivery trace after the remote write attempt. -/
def deliverTail (io : PrintEventIO) (jsn : String) : List Action :=
  match io.splunkWrite jsn with
  | some e => [.logError e, .fatalExit]
  | none => []

theorem deliverEvent_eq (io : PrintEventIO) (jsn : String) :
    deliverEvent io jsn =
      Action.consoleWrite jsn :: Action.remoteWrite jsn :: deliverTail io jsn := rfl

theorem remoteWrite_mem_deliver {io : PrintEventIO} {jsn b : String}
    (h : Action.remoteWrite b ∈ deliverEvent io jsn) : b = jsn := by
  rw [deliverEvent_eq] at h
  unfold deliverTail at h
  cases hs : io.splunkWrite jsn <;> rw [hs] at h <;> simp at h <;> exact h

/-! ### C10: console precedes remote -/

/-- C10: in every trace of `printEvent`, an attempted remote write of a
record is immediately preceded by the console write of the same record:
every record attempted against the remote collector has already been
printed to stdout, even when the remote failure then terminates the
process. -/
theorem claim_C10 (flg : Bool) (io : PrintEventIO) (b : String)
    (h : Action.remoteWrite b ∈ printEvent flg io) :
    ∃ pre post, printEvent flg io =
      pre ++ Action.consoleWrite b :: Action.remoteWrite b :: post := by
  match hm : io.marshalObj with
  | .error e => simp [printEvent, hm] at h
  | .ok jsn =>
    cases flg with
    | false =>
      have hb : b = jsn := by
        simp only [printEvent, hm, Bool.false_eq_true, if_false] at h
        exact remoteWrite_mem_deliver h
      subst hb
      exact ⟨[], deliverTail io b, by simp [printEvent, hm, deliverEvent_eq]⟩
    | true =>
      match hu : io.unmarshalDoc jsn with
      | .error e => simp [printEvent, hm, hu] at h
      | .ok dat =>
        match hmf : io.marshalFlat (flatten .init "kubewatch"
            (.vmap (dat.map (fun kv => (GoKey.str kv.1, kv.2))))).r with
        | .error e => simp [printEvent, hm, hu, hmf] at h
        | .ok jsn2 =>
          have hmem : Action.remoteWrite b ∈ deliverEvent io jsn2 := by
            simp only [printEvent, hm, hu, hmf, if_true, List.mem_append,
              List.mem_map] at h
            rcases h with ⟨m, _, hm2⟩ | h
            · cases hm2
            · exact h
          have hb : b = jsn2 := remoteWrite_mem_deliver hmem
          subst hb
          exact ⟨(flatten .init "kubewatch"
              (.vmap (dat.map (fun kv => (GoKey.str kv.1, kv.2))))).logs.map
              Action.logError,
            deliverTail io b, by simp [printEvent, hm, hu, hmf, deliverEvent_eq]⟩

/-- Witness for C10 at a concrete trace with a remote write. -/
theorem claim_C10_witness :
    ∃ pre post,
      printEvent false
        ⟨.ok "J", fun _ => .error "", fun _ => .error "", fun _ => none, none⟩ =
        pre ++ Action.consoleWrite "J" :: Action.remoteWrite "J" :: post :=
  claim_C10 false
    ⟨.ok "J", fun _ => .error "", fun _ => .error "", fun _ => none, none⟩ "J"
    (by simp [printEvent, deliverEvent])

/-! ### C1: the end-to-end flattening example -/

/-- C1 counterexample: on `{"a": {"b": true, "c": [1,2]}}` with root prefix
`"root"`, `flatten` does *not* bind `"root_a_c#"` to `"2"` (the key does not
exist at all), and it does not bind `"root_a_c0"` to `"1"`, contradicting
the claimed mapping. -/
theorem claim_C1_counterexample :
    getR (flatten .init "root" docE2E).r "root_a_c#" = none ∧
    getR (flatten .init "root" docE2E).r "root_a_c0" = none := by
  constructor <;>
    (simp only [docE2E, flatten, flattenMap, flattenSlice, flattenSliceLoop,
      flattenBool, flattenFloat64, flattenString, goPre, GoKey.render, FlatSt.init]
     decide)

/-- C1 (amended): for the input document `{"a": {"b": true, "c": [1,2]}}`,
`flatten` with root prefix `"root"` returns exactly the assignments
`root_a_b ↦ "true"`, `root_a_c_# ↦ "2"`, `root_a_c_0 ↦ "1.000000"`,
`root_a_c_1 ↦ "2.000000"` and no others: sequence-derived keys keep the
underscore that `flatten` appends to the prefix before the index or `#`,
and numeric leaves are rendered by `%f` with six decimal places. No
anomaly is logged. -/
theorem claim_C1_amended :
    flatten .init "root" docE2E =
      ⟨[("root_a_b", "true"), ("root_a_c_#", "2"),
        ("root_a_c_0", "1.000000"), ("root_a_c_1", "2.000000")], []⟩ := by
  simp only [docE2E, flatten, flattenMap, flattenSlice, flattenSliceLoop,
    flattenBool, flattenFloat64, flattenString, goPre, GoKey.render, FlatSt.init]
  decide

/-! ### C5: null and unknown shapes -/

/-- C5 counterexample: flattening `{"k": null, "b": true}` logs nothing at
all — a null leaf is skipped silently, not logged as an anomaly as the
claim states. -/
theorem claim_C5_counterexample :
    (flatten .init "root" docNull).logs = [] ∧
    (flatten .init "root" docNull).r = [("root_b", "true")] := by
  constructor <;>
    (simp only [docNull, flatten, flattenMap, flattenBool, goPre,
      GoKey.render, FlatSt.init]
     try decide)

/-- C5 (amended): a null leaf is skipped *silently* — no key is emitted,
nothing is logged, and traversal continues with the node's siblings; a
leaf of unknown shape is logged (`"Unknown: " + prefix`), no key is
emitted, and traversal likewise continues with the siblings. -/
theorem claim_C5_amended (st : FlatSt) (p k : String)
    (rest : List (GoKey × GoVal)) :
    flatten st p .vnull = st ∧
    flatten st p .vother = { st with logs := st.logs ++ ["Unknown: " ++ goPre p] } ∧
    flattenMap ((GoKey.str k, GoVal.vnull) :: rest) p st = flattenMap rest p st ∧
    flattenMap ((GoKey.str k, GoVal.vother) :: rest) p st =
      flattenMap rest p
        { st with logs := st.logs ++ ["Unknown: " ++ goPre (p ++ k)] } := by
  refine ⟨by simp [flatten], by simp [flatten], ?_, ?_⟩
  · conv_lhs => rw [flattenMap]
    rw [show flatten st (p ++ (GoKey.str k).render) GoVal.vnull = st from by simp [flatten]]
  · conv_lhs => rw [flattenMap]
    rw [show flatten st (p ++ (GoKey.str k).render) GoVal.vother =
      { st with logs := st.logs ++ ["Unknown: " ++ goPre (p ++ k)] } from by
        simp [flatten, GoKey.render]]

/-- Witness for C5 (amended) at a concrete state, prefix, key and sibling
list. -/
theorem claim_C5_amended_witness :
    flatten .init "root" .vnull = FlatSt.init ∧
    flatten .init "root" .vother =
      { FlatSt.init with logs := FlatSt.init.logs ++ ["Unknown: " ++ goPre "root"] } ∧
    flattenMap ((GoKey.str "k", GoVal.vnull) :: [(GoKey.str "b", GoVal.vbool true)])
        "root" FlatSt.init =
      flattenMap [(GoKey.str "b", GoVal.vbool true)] "root" FlatSt.init ∧
    flattenMap ((GoKey.str "k", GoVal.vother) :: [(GoKey.str "b", GoVal.vbool true)])
        "root" FlatSt.init =
      flattenMap [(GoKey.str "b", GoVal.vbool true)] "root"
        { FlatSt.init with
            logs := FlatSt.init.logs ++ ["Unknown: " ++ goPre ("root" ++ "k")] } :=
  claim_C5_amended .init "root" "k" [(GoKey.str "b", GoVal.vbool true)]

/-! ### C4: non-string map keys -/

/-- C4 counterexample: flattening a map with the non-string key rendered as
`"<int Value>"` under prefix `"root"` *does* produce an output entry derived
from that key — `"root_<int Value>" ↦ "true"` — so the key is logged but not
skipped, contradicting the claim that no recursion happens for it. -/
theorem claim_C4_counterexample :
    (flatten .init "root" docBadKey).r = [("root_<int Value>", "true")] ∧
    (flatten .init "root" docBadKey).logs =
      ["root_: map key is not string: <int Value>"] := by
  constructor <;>
    (simp only [docBadKey, flatten, flattenMap, flattenBool, goPre,
      GoKey.render, FlatSt.init]
     decide)

/-- C4 (amended): when `flattenMap` encounters a key that is not
string-like, it logs the anomaly (`"%s: map key is not string: %s"`) and
then still recurses into the key's value, with the key's reflection
rendering concatenated to the prefix, so output entries do derive from it;
the remaining keys of the mapping are flattened afterwards and the call
does not fail. -/
theorem claim_C4_amended (st : FlatSt) (p rend : String) (v : GoVal)
    (rest : List (GoKey × GoVal)) :
    flattenMap ((GoKey.nonString rend, v) :: rest) p st =
      flattenMap rest p
        (flatten
          { st with logs := st.logs ++ [p ++ ": map key is not string: " ++ rend] }
          (p ++ rend) v) := by
  conv_lhs => rw [flattenMap]
  rfl

/-- Witness for C4 (amended) at concrete inputs. -/
theorem claim_C4_amended_witness :
    flattenMap ((GoKey.nonString "<int Value>", GoVal.vbool true) :: []) "root_"
        FlatSt.init =
      flattenMap [] "root_"
        (flatten
          { FlatSt.init with
              logs := FlatSt.init.logs ++ ["root_" ++ ": map key is not string: " ++ "<int Value>"] }
          ("root_" ++ "<int Value>") (GoVal.vbool true)) :=
  claim_C4_amended .init "root_" "<int Value>" (GoVal.vbool true) []

/-! ### Shared helper lemmas -/

theorem goPre_of_ne {p : String} (hp : p ≠ "") : goPre p = p ++ "_" := by
  simp [goPre, hp]

theorem stripLast_goPre (q : String) : stripLast (goPre q) = q := by
  by_cases h : q = ""
  · subst h; rfl
  · rw [goPre_of_ne h]
    apply String.ext
    show ((q ++ "_").data).dropLast = q.data
    rw [String.data_append]
    exact List.dropLast_concat

theorem natDigitsRevAux_ne_nil (fuel n : ℕ) (h : n < fuel) :
    natDigitsRevAux fuel n ≠ [] := by
  cases fuel with
  | zero => omega
  | succ f => by_cases h10 : n < 10 <;> simp [natDigitsRevAux, h10]

theorem natToDec_ne_empty (n : ℕ) : natToDec n ≠ "" := by
  intro h
  have hd := congrArg String.data h
  simp only [natToDec, natDigitsRev] at hd
  have := natDigitsRevAux_ne_nil (n + 1) n (by omega)
  simp_all

theorem append_ne_empty_of_right {s t : String} (ht : t ≠ "") : s ++ t ≠ "" := by
  intro h
  have hd := congrArg String.data h
  rw [String.data_append] at hd
  rcases List.append_eq_nil.mp hd with ⟨-, h2⟩
  exact ht (String.ext h2)

/-- Every scalar leaf writes exactly one entry: the (transform-stripped)
prefix bound to its rendering; the log is untouched. -/
theorem flatten_scalar (st : FlatSt) (p : String) (v : GoVal)
    (h : isScalar v = true) :
    flatten st p v = ⟨st.r ++ [(p, scalarVal v)], st.logs⟩ := by
  cases v <;> simp_all [isScalar, flatten, flattenBool, flattenFloat64,
    flattenString, scalarVal, stripLast_goPre]

/-- The element loop over scalar elements: one entry per element, key
`p ++ i`, in index order. -/
theorem sliceLoop_scalar (p : String) :
    ∀ (xs : List GoVal) (i : ℕ) (st : FlatSt),
      (∀ x ∈ xs, isScalar x = true) →
      flattenSliceLoop xs p st i =
        ⟨st.r ++ (List.range xs.length).map
            (fun j => (p ++ natToDec (i + j), scalarVal (xs.getD j .vnull))),
          st.logs⟩
  | [], i, st, _ => by simp [flattenSliceLoop]
  | x :: rest, i, st, h => by
    rw [flattenSliceLoop]
    rw [flatten_scalar st (p ++ natToDec i) x (h x (by simp))]
    rw [sliceLoop_scalar p rest (i + 1) _ (fun y hy => h y (by simp [hy]))]
    have hmap : List.map
        ((fun j => (p ++ natToDec (i + j), scalarVal ((x :: rest).getD j .vnull))) ∘
          Nat.succ) (List.range rest.length) =
        List.map (fun j => (p ++ natToDec (i + 1 + j), scalarVal (rest.getD j .vnull)))
          (List.range rest.length) := by
      apply List.map_congr_left
      intro a _
      simp only [Function.comp_apply, Nat.succ_eq_add_one, List.getD_cons_succ]
      have e : i + (a + 1) = i + 1 + a := by omega
      rw [e]
    simp only [List.length_cons, List.range_succ_eq_map, List.map_cons,
      List.map_map, List.getD_cons_zero, Nat.add_zero, hmap, List.append_assoc,
      List.cons_append, List.nil_append]

/-! ### C2: sequence flattening -/

/-- C2 counterexample: flattening the one-element sequence `[true]` at
prefix `"root"` emits the length key `"root_#"` and child key `"root_0"` —
with the underscore that `flatten` appended to the prefix — not the claimed
`"root#"`/`"root0"` (those keys are absent). -/
theorem claim_C2_counterexample :
    (flatten .init "root" (.vslice [.vbool true])).r =
      [("root_#", "1"), ("root_0", "true")] ∧
    getR (flatten .init "root" (.vslice [.vbool true])).r "root#" = none ∧
    getR (flatten .init "root" (.vslice [.vbool true])).r "root0" = none := by
  refine ⟨?_, ?_, ?_⟩ <;>
    (simp only [flatten, flattenSlice, flattenSliceLoop, flattenBool, goPre,
      FlatSt.init]
     try decide)

/-- C2 (amended): for *every* sequence of length N reached at non-empty
path prefix P, `flatten` first emits the key `P ++ "_#"` (the underscore is
the separator `flatten` appends to the prefix before `flattenSlice` adds
`"#"`) with the decimal string of N as value, and then runs the element
loop at prefix `P ++ "_"`, which recurses into each element with its
decimal index concatenated to that prefix (`P ++ "_" ++ i`); when every
element is a scalar this yields exactly the N child keys `P_0 … P_(N-1)`
after the length key. The first two conjuncts are unconditional in the
elements; only the exactly-N-child-keys consequence assumes scalar
elements. -/
theorem claim_C2_amended (st : FlatSt) (p : String) (xs : List GoVal)
    (hp : p ≠ "") :
    flatten st p (.vslice xs) =
      flattenSliceLoop xs (p ++ "_")
        ⟨st.r ++ [(p ++ "_#", natToDec xs.length)], st.logs⟩ 0 ∧
    (∀ (q : String) (st' : FlatSt) (i : ℕ) (x : GoVal) (rest : List GoVal),
      flattenSliceLoop (x :: rest) q st' i =
        flattenSliceLoop rest q (flatten st' (q ++ natToDec i) x) (i + 1)) ∧
    ((∀ x ∈ xs, isScalar x = true) →
      flatten st p (.vslice xs) =
        ⟨st.r ++ (p ++ "_#", natToDec xs.length) ::
            (List.range xs.length).map
              (fun i => (p ++ "_" ++ natToDec i, scalarVal (xs.getD i .vnull))),
          st.logs⟩) := by
  refine ⟨?_, ?_, ?_⟩
  · rw [show flatten st p (.vslice xs) = flattenSlice xs (goPre p) st from by
      rw [flatten]]
    rw [flattenSlice, goPre_of_ne hp, String.append_assoc]
    rfl
  · intro q st' i x rest
    rw [flattenSliceLoop]
  · intro hs
    rw [show flatten st p (.vslice xs) = flattenSlice xs (goPre p) st from by
      rw [flatten]]
    rw [flattenSlice, sliceLoop_scalar _ _ _ _ hs]
    simp only [goPre_of_ne hp, String.append_assoc, Nat.zero_add, List.append_assoc,
      List.cons_append, List.nil_append]
    rfl

/-- Witness for C2 (amended) at the sequence `[true, "x"]` and prefix
`"root"`, exercising the scalar consequence. -/
theorem claim_C2_amended_witness :
    flatten .init "root" (.vslice [.vbool true, .vstr "x"]) =
      ⟨FlatSt.init.r ++ ("root" ++ "_#", natToDec 2) ::
          (List.range 2).map
            (fun i => ("root" ++ "_" ++ natToDec i,
              scalarVal ([GoVal.vbool true, GoVal.vstr "x"].getD i .vnull))),
        FlatSt.init.logs⟩ :=
  (claim_C2_amended .init "root" [.vbool true, .vstr "x"] (by decide)).2.2
    (by intro x hx; fin_cases hx <;> rfl)

/-! ### C8: determinism of the flattening procedure -/

/-- Every execution of a flattening task computes the function value of
that task. -/
theorem exec_taskRun {st out : FlatSt} {t : Task} (h : Exec st t out) :
    out = taskRun st t := by
  induction h with
  | nullStep st p => simp [taskRun, flatten]
  | boolStep st p b => simp [taskRun, flatten]
  | numStep st p q => simp [taskRun, flatten]
  | strStep st p s => simp [taskRun, flatten]
  | otherStep st p => simp [taskRun, flatten]
  | mapStep st out p kvs _ ih => rw [ih]; simp [taskRun, flatten]
  | sliceStep st out p xs _ ih => rw [ih]; simp [taskRun, flatten, flattenSlice]
  | mapNil st p => simp [taskRun, flattenMap]
  | mapConsStr st mid out p s v rest _ _ ih1 ih2 =>
    rw [ih2, ih1]
    conv_rhs => rw [taskRun, flattenMap]
    rfl
  | mapConsNonStr st mid out p rend v rest _ _ ih1 ih2 =>
    rw [ih2, ih1]
    conv_rhs => rw [taskRun, flattenMap]
    rfl
  | sliceNil st p i => simp [taskRun, flattenSliceLoop]
  | sliceCons st mid out p i x rest _ _ ih1 ih2 =>
    rw [ih2, ih1]
    conv_rhs => rw [taskRun, flattenSliceLoop]
    rfl

/-- C8: the flattening procedure is deterministic — any two executions of
`flatten` from the same state, with the same root prefix and the same
document in the same map-key iteration order (both encoded in the `GoVal`),
end in the same flat record and log. -/
theorem claim_C8 (st : FlatSt) (p : String) (v : GoVal) (out1 out2 : FlatSt)
    (h1 : Exec st (.node p v) out1) (h2 : Exec st (.node p v) out2) :
    out1 = out2 := (exec_taskRun h1).trans (exec_taskRun h2).symm

/-- Witness for C8: two executions on the document `true` at prefix
`"root"` from the empty state. -/
theorem claim_C8_witness :
    flattenBool true (goPre "root") FlatSt.init =
      flattenBool true (goPre "root") FlatSt.init :=
  claim_C8 .init "root" (.vbool true) _ _
    (Exec.boolStep .init "root" true) (Exec.boolStep .init "root" true)

/-! ### Decimal rendering: roundtrip, injectivity, character facts -/

theorem natDigitsRevAux_spec :
    ∀ (fuel n : ℕ), n < fuel →
      ofDigitsRev (natDigitsRevAux fuel n) = n ∧
        ∀ d ∈ natDigitsRevAux fuel n, d < 10 := by
  intro fuel
  induction fuel with
  | zero => intro n h; omega
  | succ f ih =>
    intro n h
    by_cases h10 : n < 10
    · refine ⟨?_, ?_⟩ <;> simp [natDigitsRevAux, h10, ofDigitsRev]
    · have hdiv : n / 10 < f := by
        have h1 : n / 10 < n := Nat.div_lt_self (by omega) (by omega)
        omega
      obtain ⟨ih1, ih2⟩ := ih (n / 10) hdiv
      refine ⟨?_, ?_⟩
      · simp only [natDigitsRevAux, h10, if_false, ofDigitsRev, ih1]
        omega
      · intro d hd
        simp only [natDigitsRevAux, h10, if_false, List.mem_cons] at hd
        rcases hd with rfl | hd
        · omega
        · exact ih2 d hd

theorem ofDigitsRev_natDigitsRev (n : ℕ) : ofDigitsRev (natDigitsRev n) = n :=
  (natDigitsRevAux_spec (n + 1) n (by omega)).1

theorem natDigitsRev_lt_ten (n : ℕ) : ∀ d ∈ natDigitsRev n, d < 10 :=
  (natDigitsRevAux_spec (n + 1) n (by omega)).2

theorem digitChar_toNat {d : ℕ} (h : d < 10) : (digitChar d).toNat = 48 + d := by
  interval_cases d <;> decide

theorem digitChar_ne_underscore {d : ℕ} (h : d < 10) : digitChar d ≠ '_' := by
  interval_cases d <;> decide

theorem digitChar_ne_hash {d : ℕ} (h : d < 10) : digitChar d ≠ '#' := by
  interval_cases d <;> decide

theorem map_digitChar_inj :
    ∀ (l1 l2 : List ℕ), (∀ d ∈ l1, d < 10) → (∀ d ∈ l2, d < 10) →
      l1.map digitChar = l2.map digitChar → l1 = l2
  | [], [], _, _, _ => rfl
  | [], _ :: _, _, _, h => by simp at h
  | _ :: _, [], _, _, h => by simp at h
  | d1 :: t1, d2 :: t2, h1, h2, h => by
    simp only [List.map_cons, List.cons.injEq] at h
    obtain ⟨hc, ht⟩ := h
    have e1 : (digitChar d1).toNat = (digitChar d2).toNat := by rw [hc]
    rw [digitChar_toNat (h1 d1 (by simp)), digitChar_toNat (h2 d2 (by simp))] at e1
    have e2 : d1 = d2 := by omega
    subst e2
    rw [map_digitChar_inj t1 t2 (fun d hd => h1 d (by simp [hd]))
      (fun d hd => h2 d (by simp [hd])) ht]

theorem natToDec_inj {m n : ℕ} (h : natToDec m = natToDec n) : m = n := by
  have hd : (natDigitsRev m).reverse.map digitChar =
      (natDigitsRev n).reverse.map digitChar := String.ext_iff.mp h
  have hrev : (natDigitsRev m).reverse = (natDigitsRev n).reverse :=
    map_digitChar_inj _ _
      (fun d hd' => natDigitsRev_lt_ten m d (List.mem_reverse.mp hd'))
      (fun d hd' => natDigitsRev_lt_ten n d (List.mem_reverse.mp hd')) hd
  have hdig : natDigitsRev m = natDigitsRev n := List.reverse_injective hrev
  calc m = ofDigitsRev (natDigitsRev m) := (ofDigitsRev_natDigitsRev m).symm
    _ = ofDigitsRev (natDigitsRev n) := by rw [hdig]
    _ = n := ofDigitsRev_natDigitsRev n

theorem underscore_not_mem_natToDec (n : ℕ) : '_' ∉ (natToDec n).data := by
  intro hmem
  have hm : '_' ∈ (natDigitsRev n).reverse.map digitChar := hmem
  obtain ⟨d, hd, hdc⟩ := List.mem_map.mp hm
  exact digitChar_ne_underscore
    (natDigitsRev_lt_ten n d (List.mem_reverse.mp hd)) hdc

theorem natToDec_ne_hash (n : ℕ) : natToDec n ≠ "#" := by
  intro h
  have hd : (natDigitsRev n).reverse.map digitChar = ['#'] := String.ext_iff.mp h
  have hm : '#' ∈ (natDigitsRev n).reverse.map digitChar := by rw [hd]; simp
  obtain ⟨d, hdm, hdc⟩ := List.mem_map.mp hm
  exact digitChar_ne_hash
    (natDigitsRev_lt_ten n d (List.mem_reverse.mp hdm)) hdc

/-! ### The key builder `keyOf`: data shape and injectivity -/

theorem keyOf_nil (p : String) : keyOf p [] = p := rfl

theorem keyOf_cons (p c : String) (cs : List String) :
    keyOf p (c :: cs) = keyOf (p ++ "_" ++ c) cs := rfl

theorem keyOf_data (cs : List String) :
    ∀ p : String, (keyOf p cs).data = p.data ++ tailJoin (cs.map String.data) := by
  induction cs with
  | nil => intro p; simp [keyOf, tailJoin]
  | cons c cs ih =>
    intro p
    rw [keyOf_cons, ih]
    show ((p ++ "_" ++ c).data) ++ _ = _
    rw [String.data_append, String.data_append]
    simp [tailJoin]

theorem intercalate_underscore :
    ∀ (ds : List (List Char)) (a : List Char),
      ['_'].intercalate (a :: ds) = a ++ tailJoin ds := by
  intro ds
  induction ds with
  | nil => intro a; simp [List.intercalate, tailJoin]
  | cons d ds ih =>
    intro a
    rw [tailJoin, show ('_' :: (d ++ tailJoin ds)) = ['_'] ++ (d ++ tailJoin ds) from rfl,
      ← ih d]
    simp [List.intercalate, List.intersperse_cons_cons]

theorem keyOf_inj {p : String} {cs1 cs2 : List String}
    (h1 : ∀ c ∈ cs1, '_' ∉ c.data) (h2 : ∀ c ∈ cs2, '_' ∉ c.data)
    (h : keyOf p cs1 = keyOf p cs2) : cs1 = cs2 := by
  have hd := String.ext_iff.mp h
  rw [keyOf_data, keyOf_data] at hd
  have ht : tailJoin (cs1.map String.data) = tailJoin (cs2.map String.data) :=
    List.append_cancel_left hd
  have hi : ['_'].intercalate ([] :: cs1.map String.data) =
      ['_'].intercalate ([] :: cs2.map String.data) := by
    rw [intercalate_underscore, intercalate_underscore]
    simpa using ht
  have hmem1 : ∀ l ∈ ([] : List Char) :: cs1.map String.data, '_' ∉ l := by
    intro l hl
    rcases List.mem_cons.mp hl with rfl | hl
    · simp
    · obtain ⟨c, hc, rfl⟩ := List.mem_map.mp hl
      exact h1 c hc
  have hmem2 : ∀ l ∈ ([] : List Char) :: cs2.map String.data, '_' ∉ l := by
    intro l hl
    rcases List.mem_cons.mp hl with rfl | hl
    · simp
    · obtain ⟨c, hc, rfl⟩ := List.mem_map.mp hl
      exact h2 c hc
  have hsplit := congrArg (List.splitOn '_') hi
  rw [List.splitOn_intercalate _ '_' hmem1 (by simp),
    List.splitOn_intercalate _ '_' hmem2 (by simp)] at hsplit
  have hmaps : cs1.map String.data = cs2.map String.data :=
    (List.cons.inj hsplit).2
  exact List.map_injective_iff.mpr (fun a b hab => String.ext hab) hmaps

/-! ### Shape of the write paths -/

theorem mem_wpathsEntries :
    ∀ (kvs : List (GoKey × GoVal)) (cs : List String),
      cs ∈ wpathsEntries kvs →
      ∃ k v cs', (k, v) ∈ kvs ∧ cs = k.render :: cs' ∧ cs' ∈ wpaths v := by
  intro kvs
  induction kvs with
  | nil => intro cs hcs; rw [wpathsEntries] at hcs; cases hcs
  | cons kv rest ih =>
    obtain ⟨k, v⟩ := kv
    intro cs hcs
    rw [wpathsEntries] at hcs
    rcases List.mem_append.mp hcs with h | h
    · obtain ⟨cs', hcs', rfl⟩ := List.mem_map.mp h
      exact ⟨k, v, cs', by simp, rfl, hcs'⟩
    · obtain ⟨k', v', cs', hmem, rfl, hcs'⟩ := ih cs h
      exact ⟨k', v', cs', by simp [hmem], rfl, hcs'⟩

theorem mem_wpathsElems :
    ∀ (xs : List GoVal) (i : ℕ) (cs : List String),
      cs ∈ wpathsElems i xs →
      ∃ j x cs', i ≤ j ∧ x ∈ xs ∧ cs = natToDec j :: cs' ∧ cs' ∈ wpaths x := by
  intro xs
  induction xs with
  | nil => intro i cs hcs; rw [wpathsElems] at hcs; cases hcs
  | cons x rest ih =>
    intro i cs hcs
    rw [wpathsElems] at hcs
    rcases List.mem_append.mp hcs with h | h
    · obtain ⟨cs', hcs', rfl⟩ := List.mem_map.mp h
      exact ⟨i, x, cs', le_refl i, by simp, rfl, hcs'⟩
    · obtain ⟨j, x', cs', hij, hmem, rfl, hcs'⟩ := ih (i + 1) cs h
      exact ⟨j, x', cs', by omega, by simp [hmem], rfl, hcs'⟩

theorem wpathsEntries_ne_nil {kvs : List (GoKey × GoVal)} {cs : List String}
    (h : cs ∈ wpathsEntries kvs) : cs ≠ [] := by
  obtain ⟨k, v, cs', -, rfl, -⟩ := mem_wpathsEntries kvs cs h
  simp

theorem wpathsElems_ne_nil {xs : List GoVal} {i : ℕ} {cs : List String}
    (h : cs ∈ wpathsElems i xs) : cs ≠ [] := by
  obtain ⟨j, x, cs', -, -, rfl, -⟩ := mem_wpathsElems xs i cs h
  simp

/-! ### Characterization of the emitted keys -/

theorem rKeys_append (st : FlatSt) (l : List (String × String)) :
    rKeys { st with r := st.r ++ l } = rKeys st ++ l.map Prod.fst := by
  simp [rKeys]

theorem append_ne_empty_of_left {s t : String} (hs : s ≠ "") : s ++ t ≠ "" := by
  intro h
  have hd := congrArg String.data h
  rw [String.data_append] at hd
  rcases List.append_eq_nil.mp hd with ⟨h1, -⟩
  exact hs (String.ext h1)

/-- The keys `flatten` writes are exactly the `keyOf`-encoded write paths
of the document, appended behind the keys already present. -/
theorem flatten_rKeys :
    ∀ (st : FlatSt) (p : String) (v : GoVal), p ≠ "" →
      rKeys (flatten st p v) = rKeys st ++ (wpaths v).map (keyOf p) := by
  refine Kubewatch.flatten.induct
    (fun st p v => p ≠ "" →
      rKeys (flatten st p v) = rKeys st ++ (wpaths v).map (keyOf p))
    (fun xs p st => p ≠ "" →
      rKeys (flattenSlice xs p st) =
        rKeys st ++ (p ++ "#") :: (wpathsElems 0 xs).map (keyOfLoop p))
    (fun xs p st i => p ≠ "" →
      rKeys (flattenSliceLoop xs p st i) =
        rKeys st ++ (wpathsElems i xs).map (keyOfLoop p))
    (fun kvs p st => p ≠ "" →
      rKeys (flattenMap kvs p st) =
        rKeys st ++ (wpathsEntries kvs).map (keyOfLoop p))
    ?_ ?_ ?_ ?_ ?_ ?_ ?_ ?_ ?_ ?_ ?_ ?_
  · intro st p _
    rw [flatten, wpaths]
    all_goals simp
  · intro st p b _
    rw [flatten, wpaths]
    all_goals simp [flattenBool, rKeys_append, stripLast_goPre, keyOf_nil]
  · intro st p q _
    rw [flatten, wpaths]
    all_goals simp [flattenFloat64, rKeys_append, stripLast_goPre, keyOf_nil]
  · intro st p p1 kvs ih hp
    have hp1 : p1 = p ++ "_" := goPre_of_ne hp
    rw [flatten, wpaths]
    rw [ih (by rw [hp1]; exact append_ne_empty_of_left hp)]
    rw [hp1]
    all_goals first
      | rfl
      | (congr 1
         apply List.map_congr_left
         intro cs hcs
         obtain ⟨k, v, cs', -, rfl, -⟩ := mem_wpathsEntries kvs cs hcs
         rfl)
  · intro st p p1 xs ih hp
    have hp1 : p1 = p ++ "_" := goPre_of_ne hp
    rw [flatten, wpaths]
    rw [ih (by rw [hp1]; exact append_ne_empty_of_left hp)]
    rw [hp1]
    simp only [List.map_cons]
    all_goals first
      | rfl
      | (congr 2
         apply List.map_congr_left
         intro cs hcs
         obtain ⟨j, x, cs', -, -, rfl, -⟩ := mem_wpathsElems xs 0 cs hcs
         rfl)
  · intro st p s _
    rw [flatten, wpaths]
    all_goals simp [flattenString, rKeys_append, stripLast_goPre, keyOf_nil]
  · intro st p _
    rw [flatten, wpaths]
    all_goals simp [rKeys]
  · intro xs p st ih hp
    rw [flattenSlice]
    rw [ih hp, rKeys_append]
    all_goals simp
  · intro p st i _
    rw [flattenSliceLoop, wpathsElems]
    all_goals simp
  · intro p st i x rest ih1 ih2 hp
    rw [flattenSliceLoop, wpathsElems]
    rw [ih2 hp, ih1 (append_ne_empty_of_left hp)]
    simp only [List.map_append, List.map_map, List.append_assoc]
    rfl
  · intro p st _
    rw [flattenMap, wpathsEntries]
    all_goals simp
  · intro p st k v rest st1 ih1 ih1x ih2 hp
    cases k with
    | str s =>
      have ih1' : p ++ s ≠ "" →
          rKeys (flatten st (p ++ s) v) =
            rKeys st ++ (wpaths v).map (keyOf (p ++ s)) := ih1
      have ih2' : p ≠ "" →
          rKeys (flattenMap rest p (flatten st (p ++ s) v)) =
            rKeys (flatten st (p ++ s) v) ++
              (wpathsEntries rest).map (keyOfLoop p) := ih2
      rw [flattenMap.eq_2, wpathsEntries]
      simp only [GoKey.render]
      rw [ih2' hp, ih1' (append_ne_empty_of_left hp)]
      simp only [List.map_append, List.map_map, List.append_assoc]
      rfl
    | nonString rend =>
      have ih1' : p ++ rend ≠ "" →
          rKeys (flatten
              { st with logs := st.logs ++ [p ++ ": map key is not string: " ++ rend] }
              (p ++ rend) v) =
            rKeys st ++ (wpaths v).map (keyOf (p ++ rend)) := ih1
      have ih2' : p ≠ "" →
          rKeys (flattenMap rest p (flatten
              { st with logs := st.logs ++ [p ++ ": map key is not string: " ++ rend] }
              (p ++ rend) v)) =
            rKeys (flatten
              { st with logs := st.logs ++ [p ++ ": map key is not string: " ++ rend] }
              (p ++ rend) v) ++
              (wpathsEntries rest).map (keyOfLoop p) := ih2
      rw [flattenMap.eq_3, wpathsEntries]
      simp only [GoKey.render]
      rw [ih2' hp, ih1' (append_ne_empty_of_left hp)]
      simp only [List.map_append, List.map_map, List.append_assoc]
      rfl

/-! ### Components of write paths avoid the separator -/

/-- For a well-formed document every component of every write path is free
of the underscore separator. -/
theorem wpaths_no_underscore :
    ∀ v : GoVal, goodDoc v = true →
      ∀ cs ∈ wpaths v, ∀ c ∈ cs, '_' ∉ c.data := by
  refine Kubewatch.wpaths.induct
    (fun v => goodDoc v = true → ∀ cs ∈ wpaths v, ∀ c ∈ cs, '_' ∉ c.data)
    (fun i xs => goodElems xs = true →
      ∀ cs ∈ wpathsElems i xs, ∀ c ∈ cs, '_' ∉ c.data)
    (fun kvs => goodKeys (kvs.map Prod.fst) = true → goodEntries kvs = true →
      ∀ cs ∈ wpathsEntries kvs, ∀ c ∈ cs, '_' ∉ c.data)
    ?_ ?_ ?_ ?_ ?_ ?_ ?_ ?_ ?_ ?_ ?_
  · intro _ cs hcs
    rw [wpaths] at hcs
    cases hcs
  · intro b _ cs hcs
    rw [wpaths] at hcs
    simp only [List.mem_singleton] at hcs
    subst hcs
    simp
  · intro q _ cs hcs
    rw [wpaths] at hcs
    simp only [List.mem_singleton] at hcs
    subst hcs
    simp
  · intro s _ cs hcs
    rw [wpaths] at hcs
    simp only [List.mem_singleton] at hcs
    subst hcs
    simp
  · intro _ cs hcs
    rw [wpaths] at hcs
    cases hcs
  · intro kvs ih hg cs hcs
    rw [wpaths] at hcs
    rw [goodDoc] at hg
    rw [Bool.and_eq_true] at hg
    obtain ⟨h1, h2⟩ := hg
    exact ih h1 h2 cs hcs
  · intro xs ih hg cs hcs
    rw [goodDoc] at hg
    rw [wpaths] at hcs
    rcases List.mem_cons.mp hcs with rfl | hcs
    · intro c hc
      simp only [List.mem_singleton] at hc
      subst hc
      decide
    · exact ih hg cs hcs
  · intro i _ cs hcs
    rw [wpathsElems] at hcs
    cases hcs
  · intro i x rest ih1 ih2 hg cs hcs
    rw [goodElems] at hg
    rw [Bool.and_eq_true] at hg
    obtain ⟨hgx, hgr⟩ := hg
    rw [wpathsElems] at hcs
    rcases List.mem_append.mp hcs with h | h
    · obtain ⟨cs', hcs', rfl⟩ := List.mem_map.mp h
      intro c hc
      rcases List.mem_cons.mp hc with rfl | hc
      · exact underscore_not_mem_natToDec i
      · exact ih1 hgx cs' hcs' c hc
    · exact ih2 hgr cs h
  · intro _ _ cs hcs
    rw [wpathsEntries] at hcs
    cases hcs
  · intro k v rest ih1 ih2 hk hg cs hcs
    cases k with
    | nonString rend => rw [List.map_cons, goodKeys] at hk; cases hk
    | str s =>
      rw [List.map_cons, goodKeys] at hk
      rw [Bool.and_eq_true] at hk
      obtain ⟨hs, hrest⟩ := hk
      rw [Bool.and_eq_true] at hs
      obtain ⟨hfree, hnotmem⟩ := hs
      rw [goodEntries] at hg
      rw [Bool.and_eq_true] at hg
      obtain ⟨hgv, hgr⟩ := hg
      rw [wpathsEntries] at hcs
      rcases List.mem_append.mp hcs with h | h
      · obtain ⟨cs', hcs', rfl⟩ := List.mem_map.mp h
        intro c hc
        rcases List.mem_cons.mp hc with hceq | hc
        · subst hceq
          simpa [GoKey.render] using hfree
        · exact ih1 hgv cs' hcs' c hc
      · exact ih2 hrest hgr cs h

/-! ### Write paths of a well-formed document are distinct -/

/-- For a well-formed document no two write paths coincide. -/
theorem wpaths_nodup :
    ∀ v : GoVal, goodDoc v = true → (wpaths v).Nodup := by
  refine Kubewatch.wpaths.induct
    (fun v => goodDoc v = true → (wpaths v).Nodup)
    (fun i xs => goodElems xs = true → (wpathsElems i xs).Nodup)
    (fun kvs => goodKeys (kvs.map Prod.fst) = true → goodEntries kvs = true →
      (wpathsEntries kvs).Nodup)
    ?_ ?_ ?_ ?_ ?_ ?_ ?_ ?_ ?_ ?_ ?_
  · intro _
    rw [wpaths]
    simp
  · intro b _
    rw [wpaths]
    simp
  · intro q _
    rw [wpaths]
    simp
  · intro s _
    rw [wpaths]
    simp
  · intro _
    rw [wpaths]
    simp
  · intro kvs ih hg
    rw [wpaths]
    rw [goodDoc] at hg
    rw [Bool.and_eq_true] at hg
    obtain ⟨h1, h2⟩ := hg
    exact ih h1 h2
  · intro xs ih hg
    rw [goodDoc] at hg
    rw [wpaths]
    refine List.nodup_cons.mpr ⟨?_, ih hg⟩
    intro hmem
    obtain ⟨j, x, cs', -, -, heq, -⟩ := mem_wpathsElems xs 0 _ hmem
    have := (List.cons.inj heq).1
    exact natToDec_ne_hash j this.symm
  · intro i _
    rw [wpathsElems]
    simp
  · intro i x rest ih1 ih2 hg
    rw [goodElems] at hg
    rw [Bool.and_eq_true] at hg
    obtain ⟨hgx, hgr⟩ := hg
    rw [wpathsElems]
    refine List.Nodup.append ?_ (ih2 hgr) ?_
    · exact List.Nodup.map
        (fun a b hab => (List.cons.inj hab).2) (ih1 hgx)
    · rw [List.disjoint_left]
      intro cs hcs hcs'
      obtain ⟨cs1, -, rfl⟩ := List.mem_map.mp hcs
      obtain ⟨j, y, cs2, hij, -, heq, -⟩ := mem_wpathsElems rest (i + 1) _ hcs'
      have hhead := (List.cons.inj heq).1
      have : i = j := natToDec_inj hhead
      omega
  · intro _ _
    rw [wpathsEntries]
    simp
  · intro k v rest ih1 ih2 hk hg
    cases k with
    | nonString rend => rw [List.map_cons, goodKeys] at hk; cases hk
    | str s =>
      rw [List.map_cons, goodKeys] at hk
      rw [Bool.and_eq_true] at hk
      obtain ⟨hs, hrest⟩ := hk
      rw [Bool.and_eq_true] at hs
      obtain ⟨-, hnotmem⟩ := hs
      rw [goodEntries] at hg
      rw [Bool.and_eq_true] at hg
      obtain ⟨hgv, hgr⟩ := hg
      rw [wpathsEntries]
      refine List.Nodup.append ?_ (ih2 hrest hgr) ?_
      · exact List.Nodup.map
          (fun a b hab => (List.cons.inj hab).2) (ih1 hgv)
      · rw [List.disjoint_left]
        intro cs hcs hcs'
        obtain ⟨cs1, -, rfl⟩ := List.mem_map.mp hcs
        obtain ⟨k', v', cs2, hmem, heq, -⟩ := mem_wpathsEntries rest _ hcs'
        have hhead := (List.cons.inj heq).1
        have hren : (GoKey.str s).render ∈ (rest.map Prod.fst).map GoKey.render := by
          rw [hhead]
          exact List.mem_map_of_mem _ (List.mem_map_of_mem _ hmem)
        rw [GoKey.render] at hren
        have : s ∉ (rest.map Prod.fst).map GoKey.render := by simpa using hnotmem
        exact this hren

/-! ### C3: key uniqueness -/

/-- C3 counterexample: the document `{"a": {"b": true}, "a_b": false}` has
two distinct leaf paths, `a.b` and `a_b`, that both flatten to the key
`"root_a_b"`: the second assignment overwrites the first, so flatten does
not give distinct keys to distinct leaves. -/
theorem claim_C3_counterexample :
    (flatten .init "root" docClash).r =
      [("root_a_b", "true"), ("root_a_b", "false")] ∧
    ¬ (rKeys (flatten .init "root" docClash)).Nodup := by
  constructor <;>
    (simp only [docClash, flatten, flattenMap, flattenBool, goPre,
      GoKey.render, FlatSt.init, rKeys]
     try decide)

/-- C3 (amended): for every document in which every mapping key is
string-like, keys are distinct within each mapping (as JSON objects
guarantee), and no mapping key contains the underscore separator, and for
every non-empty root prefix, the keys of the entries `flatten` emits are
pairwise distinct — no emitted entry is overwritten by another, and in
particular distinct leaf paths yield distinct keys. -/
theorem claim_C3_amended (v : GoVal) (p : String)
    (hg : goodDoc v = true) (hp : p ≠ "") :
    (rKeys (flatten .init p v)).Nodup := by
  rw [flatten_rKeys .init p v hp]
  have h0 : rKeys .init = [] := rfl
  rw [h0, List.nil_append]
  refine List.Nodup.map_on ?_ (wpaths_nodup v hg)
  intro cs1 h1 cs2 h2 heq
  exact keyOf_inj (wpaths_no_underscore v hg cs1 h1)
    (wpaths_no_underscore v hg cs2 h2) heq

/-- Witness for C3 (amended) at the end-to-end example document and root
prefix `"root"`. -/
theorem claim_C3_amended_witness :
    (rKeys (flatten .init "root" docE2E)).Nodup :=
  claim_C3_amended docE2E "root"
    (by simp only [docE2E, goodDoc, goodEntries, goodElems, goodKeys,
          List.map_cons, List.map_nil, GoKey.render]
        decide)
    (by decide)

end Kubewatch
